import Mathlib

/-!
Formal model of the URL shortener registry (`src/index.ts`, class `UrlShortener`).

The in-memory store `UrlStorage { urls: Record<string, ShortenedUrl>; counter }`
is modelled as an insertion-ordered association list with a counter.  Dates are
modelled as natural-number timestamps supplied explicitly (`now`).  The Node
`crypto.randomInt(0, 62)` source is modelled as an infinite stream
`rand : Nat → Fin 62` consumed at an explicit position, and the unbounded
retry recursion of `generateShortCode` is given explicit fuel (the TypeScript
recursion has no bound; `none` models non-termination of the retry loop).
The WHATWG `new URL(url)` constructor used by `isValidUrl` is a platform
builtin, not repository code; it is modelled as an abstract boolean predicate
`newUrlParses` threaded through the operations.
-/

namespace UrlShortenerModel

/-- One stored record, mirroring `interface ShortenedUrl`. -/
structure ShortenedUrl where
  id : String
  originalUrl : String
  shortCode : String
  createdAt : Nat
  clickCount : Nat
  lastAccessed : Option Nat
  deriving DecidableEq, Repr

/-- The persisted store, mirroring `interface UrlStorage`: an insertion-ordered
map from short code to record, plus the id counter. -/
structure UrlStorage where
  urls : List (String × ShortenedUrl)
  counter : Nat
  deriving DecidableEq, Repr

/-- `this.storage.urls[code]`: first binding for `code`, if any. -/
def urlsLookup (urls : List (String × ShortenedUrl)) (code : String) : Option ShortenedUrl :=
  (urls.find? (fun p => p.1 == code)).map (fun p => p.2)

/-- `Object.values(this.storage.urls)` in insertion order. -/
def urlValues (urls : List (String × ShortenedUrl)) : List ShortenedUrl :=
  urls.map (fun p => p.2)

/-- The 62-character alphabet used by `generateShortCode`. -/
def codeChars : List Char :=
  "abcdefghijklmnopqrstuvwxyzABCDEFGHIJKLMNOPQRSTUVWXYZ0123456789".toList

/-- One candidate draw: 6 characters `chars.charAt(crypto.randomInt(0, 62))`,
reading the random stream at positions `pos, pos+1, ..., pos+5`. -/
def drawCode (rand : Nat → Fin 62) (pos : Nat) : String :=
  String.mk ((List.range 6).map (fun i => codeChars.getD (rand (pos + i)).val 'a'))

/-- `generateShortCode()`: draw a 6-character candidate; if it is already a key
of the mapping, discard it and recurse on a fresh draw.  `fuel` bounds the
recursion (the TypeScript version recurses unboundedly); `none` models the
retry loop failing to terminate. -/
def generateShortCode (urls : List (String × ShortenedUrl)) (rand : Nat → Fin 62) :
    Nat → Nat → Option String
  | _, 0 => none
  | pos, fuel + 1 =>
    let result := drawCode rand pos
    if (urlsLookup urls result).isSome then
      generateShortCode urls rand (pos + 6) fuel
    else
      some result

/-- The two exceptions `shortenUrl` can throw. -/
inductive ShortenError where
  | invalidUrl
  | codeAlreadyExists
  deriving DecidableEq, Repr

/-- Decimal representation of a natural number (the JavaScript template
interpolation `${n}` for a nonnegative integer), least-significant digit
first, with structural fuel. -/
def toDigitsRev : Nat → Nat → List Nat
  | 0, _ => []
  | fuel + 1, n => if n = 0 then [] else n % 10 :: toDigitsRev fuel (n / 10)

/-- The character for one decimal digit. -/
def digitChar (d : Nat) : Char :=
  if d = 0 then '0' else if d = 1 then '1' else if d = 2 then '2' else
  if d = 3 then '3' else if d = 4 then '4' else if d = 5 then '5' else
  if d = 6 then '6' else if d = 7 then '7' else if d = 8 then '8' else '9'

/-- Decimal string for a natural number, as produced by `` `url_${n}` ``. -/
def natRepr (n : Nat) : String :=
  if n = 0 then "0" else String.mk (((toDigitsRev (n + 1) n).reverse).map digitChar)

/-- `isValidUrl(url)`: `new URL(url)` succeeds.  The WHATWG parser is a
platform builtin, modelled by the abstract predicate `newUrlParses`. -/
def isValidUrl (newUrlParses : String → Bool) (url : String) : Bool :=
  newUrlParses url

/-- `shortenUrl(originalUrl, customCode?)`.  Returns `none` when the code
generator's retry loop runs out of fuel (modelling non-termination), otherwise
`some (outcome, storage after the call)`; a thrown exception leaves the
storage unchanged.  Note `customCode || this.generateShortCode()` treats the
empty string as falsy. -/
def shortenUrl (urlOk : String → Bool) (rand : Nat → Fin 62) (fuel : Nat) (now : Nat)
    (st : UrlStorage) (originalUrl : String) (customCode : Option String) :
    Option (Except ShortenError ShortenedUrl × UrlStorage) :=
  if !(isValidUrl urlOk originalUrl) then
    some (Except.error ShortenError.invalidUrl, st)
  else
    match (urlValues st.urls).find? (fun u => u.originalUrl == originalUrl) with
    | some existing => some (Except.ok existing, st)
    | none =>
      let codeOpt : Option String :=
        match customCode with
        | some c => if c.isEmpty then generateShortCode st.urls rand 0 fuel else some c
        | none => generateShortCode st.urls rand 0 fuel
      match codeOpt with
      | none => none
      | some shortCode =>
        if (urlsLookup st.urls shortCode).isSome then
          some (Except.error ShortenError.codeAlreadyExists, st)
        else
          let newRecord : ShortenedUrl :=
            { id := "url_" ++ natRepr (st.counter + 1)
              originalUrl := originalUrl
              shortCode := shortCode
              createdAt := now
              clickCount := 0
              lastAccessed := none }
          some (Except.ok newRecord,
            { urls := st.urls ++ [(shortCode, newRecord)], counter := st.counter + 1 })

/-- `expandUrl(shortCode, trackClick = true)`: returns the original URL (or
`none` when absent) together with the storage after the call. -/
def expandUrl (now : Nat) (st : UrlStorage) (shortCode : String) (trackClick : Bool) :
    Option String × UrlStorage :=
  match urlsLookup st.urls shortCode with
  | none => (none, st)
  | some urlData =>
    if trackClick then
      (some urlData.originalUrl,
        { st with urls := st.urls.map (fun p =>
            if p.1 == shortCode then
              (p.1, { p.2 with clickCount := p.2.clickCount + 1, lastAccessed := some now })
            else p) })
    else
      (some urlData.originalUrl, st)

/-- One entry of the aggregate `topUrls` list. -/
structure TopUrlEntry where
  shortCode : String
  originalUrl : String
  clickCount : Nat
  deriving DecidableEq, Repr

/-- The aggregate result of `getStats()` with no code argument. -/
structure AggregateStats where
  totalUrls : Nat
  totalClicks : Nat
  topUrls : List TopUrlEntry
  deriving DecidableEq, Repr

/-- `getStats()` without a short code: totals plus the top five records by
click count (JavaScript `sort` with comparator `b.clickCount - a.clickCount`
is a stable descending sort, modelled by `mergeSort`). -/
def getStats (st : UrlStorage) : AggregateStats :=
  let allUrls := urlValues st.urls
  { totalUrls := allUrls.length
    totalClicks := allUrls.foldl (fun sum u => sum + u.clickCount) 0
    topUrls := ((allUrls.mergeSort (fun a b => decide (b.clickCount ≤ a.clickCount))).take 5).map
      (fun u => { shortCode := u.shortCode, originalUrl := u.originalUrl,
                  clickCount := u.clickCount }) }

/-- `listUrls()`. -/
def listUrls (st : UrlStorage) : List ShortenedUrl :=
  urlValues st.urls

/-- `deleteUrl(shortCode)`: success flag and the storage after the call. -/
def deleteUrl (st : UrlStorage) (shortCode : String) : Bool × UrlStorage :=
  if (urlsLookup st.urls shortCode).isSome then
    (true, { st with urls := st.urls.filter (fun p => !(p.1 == shortCode)) })
  else
    (false, st)

/-- `getFullShortUrl(shortCode)`. -/
def getFullShortUrl (baseUrl : String) (shortCode : String) : String :=
  baseUrl ++ "/" ++ shortCode

/-- Well-formedness of a storage state: short-code keys are pairwise distinct
(JavaScript object keys are unique) and each record's `shortCode` field equals
its key.  Every state reachable through the registry operations satisfies
this. -/
def WF (st : UrlStorage) : Prop :=
  (st.urls.map (fun p => p.1)).Nodup ∧ ∀ p ∈ st.urls, p.2.shortCode = p.1

/-- The operations of the registry, for trace-level invariants. -/
inductive Op where
  | shorten (u : String) (cc : Option String) (now : Nat)
  | expand (c : String) (track : Bool) (now : Nat)
  | stats
  | listAll
  | del (c : String)
  deriving DecidableEq, Repr

/-- The storage after one operation. -/
def stepState (urlOk : String → Bool) (rand : Nat → Fin 62) (fuel : Nat)
    (st : UrlStorage) : Op → UrlStorage
  | Op.shorten u cc now =>
    match shortenUrl urlOk rand fuel now st u cc with
    | some (_, st2) => st2
    | none => st
  | Op.expand c track now => (expandUrl now st c track).2
  | Op.stats => st
  | Op.listAll => st
  | Op.del c => (deleteUrl st c).2

/-- The storage after a sequence of operations. -/
def runOps (urlOk : String → Bool) (rand : Nat → Fin 62) (fuel : Nat) :
    UrlStorage → List Op → UrlStorage
  | st, [] => st
  | st, op :: ops => runOps urlOk rand fuel (stepState urlOk rand fuel st op) ops

/-- The ids assigned to newly created records by one operation (empty unless
the operation is a `shorten` that inserts a new record). -/
def opNewIds (urlOk : String → Bool) (rand : Nat → Fin 62) (fuel : Nat)
    (st : UrlStorage) : Op → List String
  | Op.shorten u cc now =>
    match shortenUrl urlOk rand fuel now st u cc with
    | some (Except.ok r, st2) => if st2.counter = st.counter then [] else [r.id]
    | _ => []
  | _ => []

/-- All ids assigned along a sequence of operations, in order. -/
def assignedIds (urlOk : String → Bool) (rand : Nat → Fin 62) (fuel : Nat) :
    UrlStorage → List Op → List String
  | _, [] => []
  | st, op :: ops =>
    opNewIds urlOk rand fuel st op ++
      assignedIds urlOk rand fuel (stepState urlOk rand fuel st op) ops

/-- Value of a least-significant-first digit list. -/
def valRev : List Nat → Nat
  | [] => 0
  | d :: ds => d + 10 * valRev ds

/-- Inverse of a digit character. -/
def digitVal (c : Char) : Nat :=
  if c = '0' then 0 else if c = '1' then 1 else if c = '2' then 2 else
  if c = '3' then 3 else if c = '4' then 4 else if c = '5' then 5 else
  if c = '6' then 6 else if c = '7' then 7 else if c = '8' then 8 else 9

/-- Numeric value recovered from a digit-character list. -/
def valOfChars (l : List Char) : Nat :=
  valRev ((l.map digitVal).reverse)

/-! Concrete fixtures used to instantiate the theorems below on closed inputs. -/

def urlOkW : String → Bool := fun _ => true

def randW : Nat → Fin 62 := fun _ => ⟨0, Nat.succ_le_succ (Nat.zero_le 61)⟩

def recW : ShortenedUrl := ⟨"url_1", "https://example.com", "ex1", 0, 0, none⟩

def stW : UrlStorage := ⟨[("ex1", recW)], 1⟩

def recA : ShortenedUrl := ⟨"url_1", "https://example.com", "aaaaaa", 0, 0, none⟩

def stA : UrlStorage := ⟨[("aaaaaa", recA)], 1⟩

def recB : ShortenedUrl := ⟨"url_2", "https://b.example", "ex2", 0, 0, none⟩

def stW2 : UrlStorage := ⟨[("ex1", recW), ("ex2", recB)], 2⟩

theorem shorten_existing (urlOk : String → Bool) (rand : Nat → Fin 62) (fuel now : Nat)
    (st : UrlStorage) (u : String) (cc : Option String) (e : ShortenedUrl)
    (hv : urlOk u = true)
    (he : (urlValues st.urls).find? (fun r => r.originalUrl == u) = some e) :
    shortenUrl urlOk rand fuel now st u cc = some (Except.ok e, st) := by
  simp [shortenUrl, isValidUrl, hv, he]

theorem shortenUrl_cases (urlOk : String → Bool) (rand : Nat → Fin 62) (fuel now : Nat)
    (st : UrlStorage) (u : String) (cc : Option String)
    (res : Except ShortenError ShortenedUrl) (st2 : UrlStorage)
    (h : shortenUrl urlOk rand fuel now st u cc = some (res, st2)) :
    (st2 = st ∧ (res = Except.error ShortenError.invalidUrl ∧ urlOk u = false ∨
                 res = Except.error ShortenError.codeAlreadyExists ∨
                 ∃ e, res = Except.ok e ∧
                   (urlValues st.urls).find? (fun r => r.originalUrl == u) = some e)) ∨
    (∃ r, res = Except.ok r ∧
       st2 = ⟨st.urls ++ [(r.shortCode, r)], st.counter + 1⟩ ∧
       urlsLookup st.urls r.shortCode = none ∧
       r.originalUrl = u ∧ r.id = "url_" ++ natRepr (st.counter + 1) ∧
       r.createdAt = now ∧ r.clickCount = 0 ∧ r.lastAccessed = none) := by
  by_cases hv : urlOk u = true
  · simp only [shortenUrl, isValidUrl, hv, Bool.not_true, Bool.false_eq_true, if_false] at h
    rcases hfind : (urlValues st.urls).find? (fun r => r.originalUrl == u) with _ | e
    · rw [hfind] at h
      rcases hcode : (match cc with
        | some c => if c.isEmpty then generateShortCode st.urls rand 0 fuel else some c
        | none => generateShortCode st.urls rand 0 fuel) with _ | code
      · simp only [hcode] at h
        simp at h
      · simp only [hcode] at h
        by_cases hdup : (urlsLookup st.urls code).isSome
        · simp only [hdup, if_true] at h
          obtain ⟨h1, h2⟩ := Prod.mk.injEq .. ▸ (Option.some.injEq .. ▸ h)
          left
          exact ⟨h2.symm, Or.inr (Or.inl h1.symm)⟩
        · simp only [hdup, if_false] at h
          obtain ⟨h1, h2⟩ := Prod.mk.injEq .. ▸ (Option.some.injEq .. ▸ h)
          right
          refine ⟨_, h1.symm, h2.symm, ?_, rfl, rfl, rfl, rfl, rfl⟩
          simpa using hdup
    · rw [hfind] at h
      obtain ⟨h1, h2⟩ := Prod.mk.injEq .. ▸ (Option.some.injEq .. ▸ h)
      left
      exact ⟨h2.symm, Or.inr (Or.inr ⟨e, h1.symm, hfind⟩)⟩
  · simp only [shortenUrl, isValidUrl, Bool.not_eq_true] at hv h
    simp only [hv, if_true] at h
    · obtain ⟨h1, h2⟩ := Prod.mk.injEq .. ▸ (Option.some.injEq .. ▸ h)
      left
      exact ⟨h2.symm, Or.inl ⟨h1.symm, hv⟩⟩

theorem urlsLookup_of_wf (urls : List (String × ShortenedUrl)) (e : ShortenedUrl)
    (hnd : (urls.map (fun p => p.1)).Nodup)
    (hkeys : ∀ p ∈ urls, p.2.shortCode = p.1)
    (hmem : e ∈ urlValues urls) :
    urlsLookup urls e.shortCode = some e := by
  induction urls with
  | nil => simp [urlValues] at hmem
  | cons hd tl ih =>
    simp only [urlValues, List.map_cons, List.mem_cons] at hmem
    rcases hmem with hmem | hmem
    · have hk : hd.2.shortCode = hd.1 := hkeys hd (List.mem_cons_self hd tl)
      subst hmem
      simp [urlsLookup, List.find?_cons, hk]
    · obtain ⟨q, hq, hq2⟩ := List.mem_map.1 hmem
      have hk : e.shortCode = q.1 := by rw [← hq2]; exact hkeys q (List.mem_cons_of_mem hd hq)
      have hne : hd.1 ≠ e.shortCode := by
        rw [hk]
        intro hcontra
        have : q.1 ∈ tl.map (fun p => p.1) := List.mem_map.2 ⟨q, hq, rfl⟩
        rw [List.map_cons] at hnd
        exact (List.nodup_cons.1 hnd).1 (hcontra ▸ this)
      have hnd2 : (tl.map (fun p => p.1)).Nodup := by
        rw [List.map_cons] at hnd
        exact (List.nodup_cons.1 hnd).2
      have htl := ih hnd2
        (fun p hp => hkeys p (List.mem_cons_of_mem hd hp)) hmem
      have hbeq : ¬((fun p => p.1 == e.shortCode) hd = true) := by simpa using hne
      have hstep : List.find? (fun p => p.1 == e.shortCode) (hd :: tl) =
          List.find? (fun p => p.1 == e.shortCode) tl :=
        List.find?_cons_of_neg tl hbeq
      rw [urlsLookup, hstep]
      exact htl

theorem urlsLookup_append_self (urls : List (String × ShortenedUrl)) (code : String)
    (r : ShortenedUrl) (h : urlsLookup urls code = none) :
    urlsLookup (urls ++ [(code, r)]) code = some r := by
  have h2 : urls.find? (fun p => p.1 == code) = none := by
    rcases hf : urls.find? (fun p => p.1 == code) with _ | q
    · exact hf
    · rw [urlsLookup, hf] at h
      simp at h
  simp [urlsLookup, List.find?_append, h2]

/-- C2: if a record with `originalUrl` equal to `u` already exists, any further
`shortenUrl u` call, with or without a custom code, returns that existing
record and leaves the storage (mapping and counter) unchanged. -/
theorem create_idempotent_by_url (urlOk : String → Bool) (rand : Nat → Fin 62)
    (fuel now : Nat) (st : UrlStorage) (u : String) (cc : Option String) (e : ShortenedUrl)
    (hv : urlOk u = true)
    (he : (urlValues st.urls).find? (fun r => r.originalUrl == u) = some e) :
    shortenUrl urlOk rand fuel now st u cc = some (Except.ok e, st) :=
  shorten_existing urlOk rand fuel now st u cc e hv he

/-- C10: the duplicate-URL check runs before custom-code validation: when a
record with `originalUrl u` exists, `shortenUrl u (some c)` returns that
record unchanged even when `c` collides with another record's short code. -/
theorem create_duplicate_url_ignores_colliding_code (urlOk : String → Bool)
    (rand : Nat → Fin 62) (fuel now : Nat) (st : UrlStorage) (u c : String)
    (e d : ShortenedUrl)
    (hv : urlOk u = true)
    (he : (urlValues st.urls).find? (fun r => r.originalUrl == u) = some e)
    (hcol : urlsLookup st.urls c = some d) :
    shortenUrl urlOk rand fuel now st u (some c) = some (Except.ok e, st) :=
  shorten_existing urlOk rand fuel now st u (some c) e hv he

/-- C3: `shortenUrl` fails with `invalidUrl` exactly when the URL-validity
check rejects the input, and on that failure the storage is returned
unchanged (mapping and counter untouched). -/
theorem create_invalid_url_iff :
    (∀ (urlOk : String → Bool) (rand : Nat → Fin 62) (fuel now : Nat)
       (st : UrlStorage) (u : String) (cc : Option String), urlOk u = false →
       shortenUrl urlOk rand fuel now st u cc =
         some (Except.error ShortenError.invalidUrl, st)) ∧
    (∀ (urlOk : String → Bool) (rand : Nat → Fin 62) (fuel now : Nat)
       (st : UrlStorage) (u : String) (cc : Option String)
       (res : Except ShortenError ShortenedUrl) (st2 : UrlStorage), urlOk u = true →
       shortenUrl urlOk rand fuel now st u cc = some (res, st2) →
       res ≠ Except.error ShortenError.invalidUrl) := by
  constructor
  · intro urlOk rand fuel now st u cc hv
    simp [shortenUrl, isValidUrl, hv]
  · intro urlOk rand fuel now st u cc res st2 hv h hres
    rcases shortenUrl_cases urlOk rand fuel now st u cc res st2 h with
      ⟨_, hcase⟩ | ⟨r, hr, _⟩
    · rcases hcase with ⟨_, h2⟩ | h1 | ⟨e, h1, _⟩
      · rw [hv] at h2
        exact Bool.noConfusion h2
      · rw [hres] at h1
        exact ShortenError.noConfusion (Except.error.inj h1)
      · rw [hres] at h1
        exact Except.noConfusion h1
    · rw [hres] at hr
      exact Except.noConfusion hr

/-- C4: a `shortenUrl` call with a valid URL not yet stored and an explicit
custom code that collides with an existing record's key fails with
`codeAlreadyExists` and leaves the storage (mapping and counter) unchanged. -/
theorem create_custom_code_collision (urlOk : String → Bool) (rand : Nat → Fin 62)
    (fuel now : Nat) (st : UrlStorage) (v c : String) (d : ShortenedUrl)
    (hv : urlOk v = true)
    (hcol : urlsLookup st.urls c = some d)
    (hc : c ≠ "")
    (hfresh : ∀ r ∈ urlValues st.urls, r.originalUrl ≠ v) :
    shortenUrl urlOk rand fuel now st v (some c) =
      some (Except.error ShortenError.codeAlreadyExists, st) := by
  have hfind : (urlValues st.urls).find? (fun r => r.originalUrl == v) = none := by
    rw [List.find?_eq_none]
    intro x hx
    simpa using hfresh x hx
  have hce : c.isEmpty = false := by
    rcases Bool.eq_false_or_eq_true c.isEmpty with hb | hb
    · exact absurd ((String.isEmpty_iff c).1 hb) hc
    · exact hb
  simp [shortenUrl, isValidUrl, hv, hfind, hce, hcol]

/-- C1: creating a valid URL and immediately resolving the short code of the
returned record yields exactly that URL, for any tracking flag. -/
theorem create_then_resolve (urlOk : String → Bool) (rand : Nat → Fin 62)
    (fuel now : Nat) (st : UrlStorage) (u : String) (cc : Option String)
    (r : ShortenedUrl) (st2 : UrlStorage)
    (hwf : WF st) (hv : urlOk u = true)
    (hrun : shortenUrl urlOk rand fuel now st u cc = some (Except.ok r, st2)) :
    ∀ (now2 : Nat) (track : Bool), (expandUrl now2 st2 r.shortCode track).1 = some u := by
  intro now2 track
  rcases shortenUrl_cases urlOk rand fuel now st u cc (Except.ok r) st2 hrun with
    ⟨hst, hcase⟩ | ⟨r2, hr2, hst2, hfreshCode, hurl, _⟩
  · rcases hcase with ⟨h1, _⟩ | h1 | ⟨e, h1, hfind⟩
    · exact Except.noConfusion h1
    · exact Except.noConfusion h1
    · have her : e = r := Except.ok.inj h1.symm
      rw [her] at hfind
      rw [hst]
      have hu : r.originalUrl = u := by
        have := List.find?_some hfind
        simpa using this
      have hmem : r ∈ urlValues st.urls := List.mem_of_find?_eq_some hfind
      have hlook : urlsLookup st.urls r.shortCode = some r :=
        urlsLookup_of_wf st.urls r hwf.1 hwf.2 hmem
      cases track <;> simp [expandUrl, hlook, hu]
  · have hr : r2 = r := Except.ok.inj hr2.symm
    rw [hr] at hst2 hfreshCode hurl
    rw [hst2]
    have hlook : urlsLookup (st.urls ++ [(r.shortCode, r)]) r.shortCode = some r :=
      urlsLookup_append_self st.urls r.shortCode r hfreshCode
    cases track <;> simp [expandUrl, hlook, hurl]

theorem urlsLookup_update_self (urls : List (String × ShortenedUrl)) (code : String)
    (f : ShortenedUrl → ShortenedUrl) (r : ShortenedUrl)
    (h : urlsLookup urls code = some r) :
    urlsLookup (urls.map (fun p => if p.1 == code then (p.1, f p.2) else p)) code =
      some (f r) := by
  induction urls with
  | nil => simp [urlsLookup] at h
  | cons hd tl ih =>
    by_cases hb : hd.1 = code
    · rw [urlsLookup, List.find?_cons_of_pos] at h
      · rw [List.map_cons]
        have hok : (if hd.1 == code then (hd.1, f hd.2) else hd) = (hd.1, f hd.2) := by
          simp [hb]
        rw [hok, urlsLookup, List.find?_cons_of_pos]
        · simp at h
          simp [h]
        · simpa using hb
      · simpa using hb
    · rw [urlsLookup, List.find?_cons_of_neg] at h
      · rw [List.map_cons]
        have hok : (if hd.1 == code then (hd.1, f hd.2) else hd) = hd := by
          simp [hb]
        rw [hok, urlsLookup, List.find?_cons_of_neg]
        · exact ih h
        · simpa using hb
      · simpa using hb

theorem urlsLookup_update_other (urls : List (String × ShortenedUrl)) (code c2 : String)
    (f : ShortenedUrl → ShortenedUrl) (hne : c2 ≠ code) :
    urlsLookup (urls.map (fun p => if p.1 == code then (p.1, f p.2) else p)) c2 =
      urlsLookup urls c2 := by
  induction urls with
  | nil => simp [urlsLookup]
  | cons hd tl ih =>
    rw [List.map_cons]
    by_cases hb : hd.1 = c2
    · have hbc : ¬hd.1 = code := by rw [hb]; exact hne
      have hok : (if hd.1 == code then (hd.1, f hd.2) else hd) = hd := by simp [hbc]
      rw [hok]
      have hpos : ((fun p => p.1 == c2) hd) = true := by simpa using hb
      have h1 : List.find? (fun p => p.1 == c2)
          (hd :: tl.map (fun p => if p.1 == code then (p.1, f p.2) else p)) = some hd :=
        List.find?_cons_of_pos _ hpos
      have h2 : List.find? (fun p => p.1 == c2) (hd :: tl) = some hd :=
        List.find?_cons_of_pos _ hpos
      rw [urlsLookup, h1, urlsLookup, h2]
    · have hok1 : urlsLookup ((if hd.1 == code then (hd.1, f hd.2) else hd) :: tl.map
          (fun p => if p.1 == code then (p.1, f p.2) else p)) c2 =
          urlsLookup (tl.map (fun p => if p.1 == code then (p.1, f p.2) else p)) c2 := by
        rw [urlsLookup, List.find?_cons_of_neg]
        · rfl
        · by_cases hc : hd.1 = code <;> simp [hc, hb, Ne.symm hne]
      have hok2 : urlsLookup (hd :: tl) c2 = urlsLookup tl c2 := by
        rw [urlsLookup, List.find?_cons_of_neg]
        · rfl
        · simpa using hb
      rw [hok1, hok2, ih]

/-- C6: a tracked resolve of a present code returns the original URL,
increments only that record's click count and sets its last-access time,
leaving its other fields, all other records, and the counter unchanged; an
untracked resolve of a present code mutates nothing; a resolve of an absent
code returns the not-found result and mutates nothing. -/
theorem resolve_click_tracking :
    (∀ (now : Nat) (st : UrlStorage) (c : String) (r : ShortenedUrl),
       urlsLookup st.urls c = some r →
       (expandUrl now st c true).1 = some r.originalUrl ∧
       (expandUrl now st c true).2.counter = st.counter ∧
       urlsLookup (expandUrl now st c true).2.urls c =
         some { r with clickCount := r.clickCount + 1, lastAccessed := some now } ∧
       (∀ c2, c2 ≠ c →
          urlsLookup (expandUrl now st c true).2.urls c2 = urlsLookup st.urls c2)) ∧
    (∀ (now : Nat) (st : UrlStorage) (c : String) (r : ShortenedUrl),
       urlsLookup st.urls c = some r →
       expandUrl now st c false = (some r.originalUrl, st)) ∧
    (∀ (now : Nat) (st : UrlStorage) (c : String) (track : Bool),
       urlsLookup st.urls c = none →
       expandUrl now st c track = (none, st)) := by
  refine ⟨?_, ?_, ?_⟩
  · intro now st c r h
    refine ⟨by simp [expandUrl, h], by simp [expandUrl, h], ?_, ?_⟩
    · have := urlsLookup_update_self st.urls c
        (fun x => { x with clickCount := x.clickCount + 1, lastAccessed := some now }) r h
      simpa [expandUrl, h] using this
    · intro c2 hne
      have := urlsLookup_update_other st.urls c c2
        (fun x => { x with clickCount := x.clickCount + 1, lastAccessed := some now }) hne
      simpa [expandUrl, h] using this
  · intro now st c r h
    simp [expandUrl, h]
  · intro now st c track h
    simp [expandUrl, h]

theorem getD_mem_of_lt (l : List Char) (n : Nat) (d : Char) (h : n < l.length) :
    l.getD n d ∈ l := by
  rw [List.getD_eq_getElem?_getD, List.getElem?_eq_getElem h]
  exact List.getElem_mem h

theorem drawCode_length (rand : Nat → Fin 62) (pos : Nat) :
    (drawCode rand pos).length = 6 := by
  simp [drawCode]

theorem drawCode_chars (rand : Nat → Fin 62) (pos : Nat) :
    ∀ ch ∈ (drawCode rand pos).data, ch ∈ codeChars := by
  intro ch hch
  simp only [drawCode] at hch
  obtain ⟨i, _, rfl⟩ := List.mem_map.1 hch
  exact getD_mem_of_lt codeChars (rand (pos + i)).val 'a'
    (lt_of_lt_of_eq (rand (pos + i)).isLt (by rfl))

theorem generateShortCode_spec (urls : List (String × ShortenedUrl)) (rand : Nat → Fin 62) :
    ∀ (fuel pos : Nat) (code : String), generateShortCode urls rand pos fuel = some code →
      code.length = 6 ∧ (∀ ch ∈ code.data, ch ∈ codeChars) ∧ urlsLookup urls code = none := by
  intro fuel
  induction fuel with
  | zero => intro pos code h; exact Option.noConfusion h
  | succ fuel ih =>
    intro pos code h
    rw [generateShortCode] at h
    by_cases hdup : (urlsLookup urls (drawCode rand pos)).isSome
    · rw [if_pos hdup] at h
      exact ih (pos + 6) code h
    · rw [if_neg hdup] at h
      have hc : drawCode rand pos = code := Option.some.inj h
      subst hc
      refine ⟨drawCode_length rand pos, drawCode_chars rand pos, ?_⟩
      simpa [Option.isSome_iff_ne_none] using hdup

/-- C5: every code produced by the generator is exactly 6 characters long,
drawn from the 62-character alphabet, and is not a key of the mapping at the
moment it is produced; consequently a `shortenUrl` call with no custom code
never fails with `codeAlreadyExists`. -/
theorem generated_codes_fresh :
    (∀ (urls : List (String × ShortenedUrl)) (rand : Nat → Fin 62) (fuel pos : Nat)
       (code : String), generateShortCode urls rand pos fuel = some code →
       code.length = 6 ∧ (∀ ch ∈ code.data, ch ∈ codeChars) ∧
       urlsLookup urls code = none) ∧
    (∀ (urlOk : String → Bool) (rand : Nat → Fin 62) (fuel now : Nat) (st : UrlStorage)
       (u : String) (res : Except ShortenError ShortenedUrl) (st2 : UrlStorage),
       shortenUrl urlOk rand fuel now st u none = some (res, st2) →
       res ≠ Except.error ShortenError.codeAlreadyExists) := by
  constructor
  · intro urls rand fuel pos code h
    exact generateShortCode_spec urls rand fuel pos code h
  · intro urlOk rand fuel now st u res st2 h hres
    subst hres
    by_cases hv : urlOk u = true
    · simp only [shortenUrl, isValidUrl, hv, Bool.not_true, Bool.false_eq_true, if_false] at h
      rcases hfind : (urlValues st.urls).find? (fun r => r.originalUrl == u) with _ | e
      · rw [hfind] at h
        rcases hgen : generateShortCode st.urls rand 0 fuel with _ | code
        · rw [hgen] at h
          exact Option.noConfusion h
        · rw [hgen] at h
          have hfresh := (generateShortCode_spec st.urls rand fuel 0 code hgen).2.2
          simp only [hfresh, Option.isSome_none, Bool.false_eq_true, if_false] at h
          have := (Prod.mk.injEq .. ▸ (Option.some.injEq .. ▸ h)).1
          exact Except.noConfusion this
      · rw [hfind] at h
        have := (Prod.mk.injEq .. ▸ (Option.some.injEq .. ▸ h)).1
        exact Except.noConfusion this
    · simp only [shortenUrl, isValidUrl, Bool.not_eq_true] at hv h
      simp only [hv, if_true] at h
      have := (Prod.mk.injEq .. ▸ (Option.some.injEq .. ▸ h)).1
      exact ShortenError.noConfusion (Except.error.inj this)

/-- C9: passing the empty string as custom code behaves exactly like passing
no custom code (`customCode || generate` treats `""` as falsy): the call is
equal to the no-custom-code call, and when the URL is new the record is
stored under a freshly generated 6-character code, never under the
empty-string key. -/
theorem empty_custom_code_generates :
    (∀ (urlOk : String → Bool) (rand : Nat → Fin 62) (fuel now : Nat) (st : UrlStorage)
       (u : String),
       shortenUrl urlOk rand fuel now st u (some "") =
         shortenUrl urlOk rand fuel now st u none) ∧
    (∀ (urlOk : String → Bool) (rand : Nat → Fin 62) (fuel now : Nat) (st : UrlStorage)
       (u : String) (res : Except ShortenError ShortenedUrl) (st2 : UrlStorage),
       urlOk u = true →
       (urlValues st.urls).find? (fun r => r.originalUrl == u) = none →
       shortenUrl urlOk rand fuel now st u (some "") = some (res, st2) →
       ∃ r, res = Except.ok r ∧
         generateShortCode st.urls rand 0 fuel = some r.shortCode ∧
         r.shortCode.length = 6 ∧ r.shortCode ≠ "" ∧
         urlsLookup st.urls r.shortCode = none ∧
         st2 = ⟨st.urls ++ [(r.shortCode, r)], st.counter + 1⟩) := by
  have hcode0 : ∀ (urls : List (String × ShortenedUrl)) (rand : Nat → Fin 62) (fuel : Nat),
      (if ("" : String).isEmpty then generateShortCode urls rand 0 fuel else some "") =
        generateShortCode urls rand 0 fuel := by
    intro urls rand fuel
    rw [show ("" : String).isEmpty = true from rfl]
    simp
  constructor
  · intro urlOk rand fuel now st u
    rw [shortenUrl, shortenUrl, hcode0]
  · intro urlOk rand fuel now st u res st2 hv hfind h
    simp only [shortenUrl, isValidUrl, hv, Bool.not_true, Bool.false_eq_true, if_false,
      hfind, hcode0] at h
    rcases hgen : generateShortCode st.urls rand 0 fuel with _ | code
    · rw [hgen] at h
      exact Option.noConfusion h
    · rw [hgen] at h
      obtain ⟨hlen, _, hfresh⟩ := generateShortCode_spec st.urls rand fuel 0 code hgen
      simp only [hfresh, Option.isSome_none, Bool.false_eq_true, if_false] at h
      rw [Option.some.injEq, Prod.mk.injEq] at h
      obtain ⟨h1, h2⟩ := h
      subst h1
      subst h2
      refine ⟨_, rfl, ?_, ?_, ?_, ?_, rfl⟩ <;> dsimp only
      all_goals first
        | exact hgen
        | exact hlen
        | exact hfresh
        | (intro hcontra
           rw [hcontra] at hlen
           simp at hlen)

theorem foldl_add_clickCount (l : List ShortenedUrl) (a : Nat) :
    l.foldl (fun sum u => sum + u.clickCount) a = a + (l.map (fun u => u.clickCount)).sum := by
  induction l generalizing a with
  | nil => simp
  | cons hd tl ih =>
    rw [List.foldl_cons, ih, List.map_cons, List.sum_cons]
    omega

/-- C7: `getStats` with no code reports the mapping size as `totalUrls`, the
sum of all click counts as `totalClicks`, and at most five entries ordered by
descending click count in `topUrls`, each the reduction of a stored record. -/
theorem aggregate_stats_spec (st : UrlStorage) :
    (getStats st).totalUrls = st.urls.length ∧
    (getStats st).totalClicks = ((urlValues st.urls).map (fun u => u.clickCount)).sum ∧
    (getStats st).topUrls.length ≤ 5 ∧
    (getStats st).topUrls.Pairwise (fun a b => b.clickCount ≤ a.clickCount) ∧
    ∀ e ∈ (getStats st).topUrls, ∃ r ∈ urlValues st.urls,
      e = ⟨r.shortCode, r.originalUrl, r.clickCount⟩ := by
  refine ⟨?_, ?_, ?_, ?_, ?_⟩
  · simp [getStats, urlValues]
  · simp [getStats, foldl_add_clickCount]
  · simp only [getStats, List.length_map, List.length_take, List.length_mergeSort]
    omega
  · have hsorted : ((urlValues st.urls).mergeSort
        (fun a b => decide (b.clickCount ≤ a.clickCount))).Pairwise
        (fun a b => decide (b.clickCount ≤ a.clickCount) = true) := by
      apply List.sorted_mergeSort
      · intro a b c hab hbc
        simp at hab hbc ⊢
        omega
      · intro a b
        simp
        omega
    have htake := hsorted.sublist (List.take_sublist 5 _)
    simp only [getStats]
    rw [List.pairwise_map]
    exact htake.imp (fun h => by simpa using h)
  · intro e he
    simp only [getStats, List.mem_map] at he
    obtain ⟨u, hu, rfl⟩ := he
    have hu2 : u ∈ (urlValues st.urls).mergeSort
        (fun a b => decide (b.clickCount ≤ a.clickCount)) :=
      List.take_subset 5 _ hu
    exact ⟨u, List.mem_mergeSort.1 hu2, rfl⟩

theorem valRev_toDigitsRev (fuel : Nat) : ∀ n : Nat, n < fuel →
    valRev (toDigitsRev fuel n) = n := by
  induction fuel with
  | zero => intro n h; omega
  | succ fuel ih =>
    intro n h
    rw [toDigitsRev]
    by_cases h0 : n = 0
    · simp [h0, valRev]
    · rw [if_neg h0]
      have hdiv : n / 10 < fuel := by
        have h1 : n / 10 < n := Nat.div_lt_self (Nat.pos_of_ne_zero h0) (by omega)
        omega
      rw [valRev, ih (n / 10) hdiv]
      omega

theorem toDigitsRev_lt_ten (fuel : Nat) : ∀ n : Nat, ∀ d ∈ toDigitsRev fuel n, d < 10 := by
  induction fuel with
  | zero => intro n d hd; simp [toDigitsRev] at hd
  | succ fuel ih =>
    intro n d hd
    rw [toDigitsRev] at hd
    by_cases h0 : n = 0
    · simp [h0] at hd
    · rw [if_neg h0] at hd
      rcases List.mem_cons.1 hd with h | h
      · omega
      · exact ih (n / 10) d h

theorem digitVal_digitChar (d : Nat) (h : d < 10) : digitVal (digitChar d) = d := by
  interval_cases d <;> rfl

theorem map_digitVal_digitChar (l : List Nat) (h : ∀ d ∈ l, d < 10) :
    l.map (fun d => digitVal (digitChar d)) = l := by
  induction l with
  | nil => rfl
  | cons hd tl ih =>
    rw [List.map_cons, digitVal_digitChar hd (h hd (List.mem_cons_self hd tl)),
      ih (fun d hd2 => h d (List.mem_cons_of_mem hd hd2))]

theorem valOfChars_natRepr (n : Nat) : valOfChars (natRepr n).data = n := by
  by_cases h0 : n = 0
  · subst h0
    rfl
  · rw [natRepr, if_neg h0]
    show valOfChars ((toDigitsRev (n + 1) n).reverse.map digitChar) = n
    simp only [valOfChars, List.map_reverse, List.reverse_reverse, List.map_map]
    have := map_digitVal_digitChar (toDigitsRev (n + 1) n) (toDigitsRev_lt_ten (n + 1) n)
    rw [show (digitVal ∘ digitChar) = (fun d => digitVal (digitChar d)) from rfl, this]
    exact valRev_toDigitsRev (n + 1) n (by omega)

theorem natRepr_inj (m n : Nat) (h : natRepr m = natRepr n) : m = n := by
  have := congrArg (fun s => valOfChars s.data) h
  simpa [valOfChars_natRepr] using this

theorem urlId_inj (m n : Nat) (h : ("url_" ++ natRepr m : String) = "url_" ++ natRepr n) :
    m = n := by
  apply natRepr_inj
  have hd := congrArg String.data h
  simp only [String.data_append] at hd
  exact String.ext (List.append_cancel_left hd)

theorem shortenUrl_counter (urlOk : String → Bool) (rand : Nat → Fin 62) (fuel now : Nat)
    (st : UrlStorage) (u : String) (cc : Option String)
    (res : Except ShortenError ShortenedUrl) (st2 : UrlStorage)
    (h : shortenUrl urlOk rand fuel now st u cc = some (res, st2)) :
    st2.counter = st.counter ∨
    (st2.counter = st.counter + 1 ∧
      ∃ r, res = Except.ok r ∧ r.id = "url_" ++ natRepr (st.counter + 1)) := by
  rcases shortenUrl_cases urlOk rand fuel now st u cc res st2 h with
    ⟨hst, _⟩ | ⟨r, hr, hst2, _, _, hid, _⟩
  · left
    rw [hst]
  · right
    rw [hst2]
    exact ⟨rfl, r, hr, hid⟩

theorem expandUrl_counter (now : Nat) (st : UrlStorage) (c : String) (track : Bool) :
    (expandUrl now st c track).2.counter = st.counter := by
  rw [expandUrl]
  rcases urlsLookup st.urls c with _ | r
  · rfl
  · cases track <;> rfl

theorem deleteUrl_counter (st : UrlStorage) (c : String) :
    (deleteUrl st c).2.counter = st.counter := by
  rw [deleteUrl]
  by_cases h : (urlsLookup st.urls c).isSome <;> simp [h]

theorem stepState_counter_le (urlOk : String → Bool) (rand : Nat → Fin 62) (fuel : Nat)
    (st : UrlStorage) (op : Op) :
    st.counter ≤ (stepState urlOk rand fuel st op).counter := by
  cases op with
  | shorten u cc now =>
    rw [stepState]
    rcases hrun : shortenUrl urlOk rand fuel now st u cc with _ | p
    · exact Nat.le_refl _
    · rcases p with ⟨res, st2⟩
      show st.counter ≤ st2.counter
      rcases shortenUrl_counter urlOk rand fuel now st u cc res st2 hrun with
        h | ⟨h, _⟩ <;> omega
  | expand c track now =>
    rw [stepState, expandUrl_counter]
  | stats => exact Nat.le_refl _
  | listAll => exact Nat.le_refl _
  | del c =>
    rw [stepState, deleteUrl_counter]

theorem runOps_counter_le (urlOk : String → Bool) (rand : Nat → Fin 62) (fuel : Nat) :
    ∀ (ops : List Op) (st : UrlStorage), st.counter ≤ (runOps urlOk rand fuel st ops).counter := by
  intro ops
  induction ops with
  | nil => intro st; exact Nat.le_refl _
  | cons op ops ih =>
    intro st
    rw [runOps]
    exact Nat.le_trans (stepState_counter_le urlOk rand fuel st op)
      (ih (stepState urlOk rand fuel st op))

theorem opNewIds_mem (urlOk : String → Bool) (rand : Nat → Fin 62) (fuel : Nat)
    (st : UrlStorage) (op : Op) (s : String)
    (h : s ∈ opNewIds urlOk rand fuel st op) :
    s = "url_" ++ natRepr (st.counter + 1) ∧
      (stepState urlOk rand fuel st op).counter = st.counter + 1 := by
  cases op with
  | shorten u cc now =>
    rw [opNewIds] at h
    rcases hrun : shortenUrl urlOk rand fuel now st u cc with _ | p
    · rw [hrun] at h
      simp at h
    · rcases p with ⟨res, st2⟩
      rw [hrun] at h
      rcases res with e | r
      · simp at h
      · by_cases hc : st2.counter = st.counter
        · simp [hc] at h
        · simp only [hc, if_false] at h
          have hs : s = r.id := by simpa using h
          rcases shortenUrl_counter urlOk rand fuel now st u cc (Except.ok r) st2 hrun with
            hcc | ⟨hcc, r2, hr2, hid⟩
          · exact absurd hcc hc
          · have hrr : r2 = r := Except.ok.inj hr2.symm
            subst hrr
            refine ⟨by rw [hs, hid], ?_⟩
            rw [stepState, hrun, hcc]
  | expand c track now => simp [opNewIds] at h
  | stats => simp [opNewIds] at h
  | listAll => simp [opNewIds] at h
  | del c => simp [opNewIds] at h

theorem assignedIds_bound (urlOk : String → Bool) (rand : Nat → Fin 62) (fuel : Nat) :
    ∀ (ops : List Op) (st : UrlStorage) (s : String),
      s ∈ assignedIds urlOk rand fuel st ops →
      ∃ k, st.counter < k ∧ s = "url_" ++ natRepr k := by
  intro ops
  induction ops with
  | nil => intro st s hs; simp [assignedIds] at hs
  | cons op ops ih =>
    intro st s hs
    rw [assignedIds] at hs
    rcases List.mem_append.1 hs with h | h
    · obtain ⟨hid, _⟩ := opNewIds_mem urlOk rand fuel st op s h
      exact ⟨st.counter + 1, Nat.lt_succ_self _, hid⟩
    · obtain ⟨k, hk, hs2⟩ := ih (stepState urlOk rand fuel st op) s h
      exact ⟨k, Nat.lt_of_le_of_lt (stepState_counter_le urlOk rand fuel st op) hk, hs2⟩

theorem assignedIds_nodup (urlOk : String → Bool) (rand : Nat → Fin 62) (fuel : Nat) :
    ∀ (ops : List Op) (st : UrlStorage), (assignedIds urlOk rand fuel st ops).Nodup := by
  intro ops
  induction ops with
  | nil => intro st; simp [assignedIds]
  | cons op ops ih =>
    intro st
    rw [assignedIds]
    apply List.Nodup.append
    · cases op with
      | shorten u cc now =>
        rw [opNewIds]
        rcases shortenUrl urlOk rand fuel now st u cc with _ | p
        · exact List.nodup_nil
        · rcases p with ⟨res, st2⟩
          rcases res with e | r
          · exact List.nodup_nil
          · by_cases hc : st2.counter = st.counter <;> simp [hc]
      | expand c track now => simp [opNewIds]
      | stats => simp [opNewIds]
      | listAll => simp [opNewIds]
      | del c => simp [opNewIds]
    · exact ih (stepState urlOk rand fuel st op)
    · intro s hs hs2
      obtain ⟨hid, hstep⟩ := opNewIds_mem urlOk rand fuel st op s hs
      obtain ⟨k, hk, hid2⟩ := assignedIds_bound urlOk rand fuel ops
        (stepState urlOk rand fuel st op) s hs2
      rw [hstep] at hk
      rw [hid] at hid2
      have := urlId_inj (st.counter + 1) k hid2
      omega

/-- C8: the registry counter never decreases across any sequence of
operations; a `shortenUrl` call that changes the counter increments it by
exactly one and stamps the new record with id `url_<counter+1>` (so the first
id assigned from a fresh registry is `url_1`); and the ids assigned along any
sequence of operations are pairwise distinct, so an id is never reused even
after its record is deleted. -/
theorem counter_monotone_ids_unique :
    (∀ (urlOk : String → Bool) (rand : Nat → Fin 62) (fuel : Nat) (st : UrlStorage)
       (ops : List Op), st.counter ≤ (runOps urlOk rand fuel st ops).counter) ∧
    (∀ (urlOk : String → Bool) (rand : Nat → Fin 62) (fuel now : Nat) (st : UrlStorage)
       (u : String) (cc : Option String) (res : Except ShortenError ShortenedUrl)
       (st2 : UrlStorage),
       shortenUrl urlOk rand fuel now st u cc = some (res, st2) →
       st2.counter ≠ st.counter →
       st2.counter = st.counter + 1 ∧
         ∃ r, res = Except.ok r ∧ r.id = "url_" ++ natRepr (st.counter + 1)) ∧
    ("url_" ++ natRepr (0 + 1) = "url_1") ∧
    (∀ (urlOk : String → Bool) (rand : Nat → Fin 62) (fuel : Nat) (st : UrlStorage)
       (ops : List Op), (assignedIds urlOk rand fuel st ops).Nodup) := by
  refine ⟨?_, ?_, ?_, ?_⟩
  · intro urlOk rand fuel st ops
    exact runOps_counter_le urlOk rand fuel ops st
  · intro urlOk rand fuel now st u cc res st2 h hne
    rcases shortenUrl_counter urlOk rand fuel now st u cc res st2 h with hc | hc
    · exact absurd hc hne
    · exact hc
  · rfl
  · intro urlOk rand fuel st ops
    exact assignedIds_nodup urlOk rand fuel ops st

theorem create_then_resolve_witness :
    (expandUrl 7 stA recA.shortCode true).1 = some "https://example.com" :=
  create_then_resolve urlOkW randW 1 0 ⟨[], 0⟩ "https://example.com" none recA stA
    (by simp [WF]) rfl rfl 7 true

theorem create_idempotent_by_url_witness :
    shortenUrl urlOkW randW 1 3 stW "https://example.com" none = some (Except.ok recW, stW) :=
  create_idempotent_by_url urlOkW randW 1 3 stW "https://example.com" none recW rfl rfl

theorem create_invalid_url_witness :
    shortenUrl (fun _ => false) randW 1 0 ⟨[], 0⟩ "not-a-url" none =
      some (Except.error ShortenError.invalidUrl, ⟨[], 0⟩) ∧
    (Except.ok recW : Except ShortenError ShortenedUrl) ≠
      Except.error ShortenError.invalidUrl :=
  ⟨create_invalid_url_iff.1 (fun _ => false) randW 1 0 ⟨[], 0⟩ "not-a-url" none rfl,
   create_invalid_url_iff.2 urlOkW randW 1 3 stW "https://example.com" none
     (Except.ok recW) stW rfl rfl⟩

theorem create_custom_code_collision_witness :
    shortenUrl urlOkW randW 1 4 stW "https://other.example" (some "ex1") =
      some (Except.error ShortenError.codeAlreadyExists, stW) :=
  create_custom_code_collision urlOkW randW 1 4 stW "https://other.example" "ex1" recW
    rfl rfl (by decide) (by decide)

theorem generated_codes_fresh_witness :
    ("aaaaaa".length = 6 ∧ (∀ ch ∈ "aaaaaa".data, ch ∈ codeChars) ∧
      urlsLookup [] "aaaaaa" = none) ∧
    (Except.ok recA : Except ShortenError ShortenedUrl) ≠
      Except.error ShortenError.codeAlreadyExists :=
  ⟨generated_codes_fresh.1 [] randW 1 0 "aaaaaa" rfl,
   generated_codes_fresh.2 urlOkW randW 1 0 ⟨[], 0⟩ "https://example.com"
     (Except.ok recA) stA rfl⟩

theorem resolve_click_tracking_witness :
    (expandUrl 9 stW "ex1" true).1 = some "https://example.com" ∧
    urlsLookup (expandUrl 9 stW "ex1" true).2.urls "zzz" = urlsLookup stW.urls "zzz" ∧
    expandUrl 9 stW "ex1" false = (some "https://example.com", stW) ∧
    expandUrl 9 stW "zzz" true = (none, stW) :=
  ⟨(resolve_click_tracking.1 9 stW "ex1" recW rfl).1,
   (resolve_click_tracking.1 9 stW "ex1" recW rfl).2.2.2 "zzz" (by decide),
   resolve_click_tracking.2.1 9 stW "ex1" recW rfl,
   resolve_click_tracking.2.2 9 stW "zzz" true rfl⟩

theorem aggregate_stats_witness :
    (getStats stW).totalUrls = stW.urls.length ∧
    ∃ r ∈ urlValues stW.urls, (⟨"ex1", "https://example.com", 0⟩ : TopUrlEntry) =
      ⟨r.shortCode, r.originalUrl, r.clickCount⟩ :=
  ⟨(aggregate_stats_spec stW).1,
   (aggregate_stats_spec stW).2.2.2.2 ⟨"ex1", "https://example.com", 0⟩
     (by simp [getStats, stW, recW, urlValues])⟩

theorem counter_monotone_ids_unique_witness :
    (⟨[], 0⟩ : UrlStorage).counter ≤
      (runOps urlOkW randW 1 ⟨[], 0⟩ [Op.shorten "https://example.com" none 0]).counter ∧
    (stA.counter = (⟨[], 0⟩ : UrlStorage).counter + 1 ∧
      ∃ r, (Except.ok recA : Except ShortenError ShortenedUrl) = Except.ok r ∧
        r.id = "url_" ++ natRepr ((⟨[], 0⟩ : UrlStorage).counter + 1)) ∧
    (assignedIds urlOkW randW 1 ⟨[], 0⟩ [Op.shorten "https://example.com" none 0]).Nodup :=
  ⟨counter_monotone_ids_unique.1 urlOkW randW 1 ⟨[], 0⟩
     [Op.shorten "https://example.com" none 0],
   counter_monotone_ids_unique.2.1 urlOkW randW 1 0 ⟨[], 0⟩ "https://example.com" none
     (Except.ok recA) stA rfl (by decide),
   counter_monotone_ids_unique.2.2.2 urlOkW randW 1 ⟨[], 0⟩
     [Op.shorten "https://example.com" none 0]⟩

theorem empty_custom_code_generates_witness :
    shortenUrl urlOkW randW 1 0 ⟨[], 0⟩ "https://example.com" (some "") =
      shortenUrl urlOkW randW 1 0 ⟨[], 0⟩ "https://example.com" none ∧
    ∃ r, (Except.ok recA : Except ShortenError ShortenedUrl) = Except.ok r ∧
      generateShortCode [] randW 0 1 = some r.shortCode ∧
      r.shortCode.length = 6 ∧ r.shortCode ≠ "" ∧
      urlsLookup [] r.shortCode = none ∧
      stA = ⟨[] ++ [(r.shortCode, r)], 0 + 1⟩ :=
  ⟨empty_custom_code_generates.1 urlOkW randW 1 0 ⟨[], 0⟩ "https://example.com",
   empty_custom_code_generates.2 urlOkW randW 1 0 ⟨[], 0⟩ "https://example.com"
     (Except.ok recA) stA rfl rfl rfl⟩

theorem create_duplicate_url_ignores_colliding_code_witness :
    shortenUrl urlOkW randW 1 5 stW2 "https://example.com" (some "ex2") =
      some (Except.ok recW, stW2) :=
  create_duplicate_url_ignores_colliding_code urlOkW randW 1 5 stW2
    "https://example.com" "ex2" recW recB rfl rfl rfl

end UrlShortenerModel
